import Mathlib

/-!
Verification of the rate-limiting strategies of the backend-concepts
repository.  Each middleware is embedded as a pure step function over the
per-key state it keeps in its Map, with timestamps in milliseconds as
integers (JavaScript Date.now values), and the HTTP effects (next / 429 /
setTimeout) abstracted into an Outcome value.
-/

namespace BackendConcepts

/-- Per-request decision of a middleware: pass the request on, reject it
with a 429 carrying a retry hint in seconds, or re-schedule it after a
delay in milliseconds. -/
inductive Outcome
  | allow
  | rejectWith (retryAfterSeconds : ℤ)
  | delayFor (delayMs : ℤ)
  deriving DecidableEq, Repr

/-- Semantics of Math.ceil(a / b) on integer operands with b positive,
as used for the retryAfter computations. -/
def jsCeilDiv (a b : ℤ) : ℤ := -(Int.fdiv (-a) b)

/-- Semantics of Math.floor(a / b) on integer operands. -/
def jsFloorDiv (a b : ℤ) : ℤ := Int.fdiv a b

/-! ## Fixed window counter (src/unnamed/part_007) -/

/-- Per-key state of the fixed window counter. -/
structure WindowState where
  count : ℤ
  windowStart : ℤ
  deriving DecidableEq, Repr

/-- One call of the fixed window counter middleware for one key.
Mirrors fixedWindowRateLimiter: create the window on first sight, count
inside a live window, reject with the rounded-up remaining window time
once the count has reached maxRequests, reset on an expired window. -/
def fixedWindowRateLimiter (windowTime maxRequests : ℤ)
    (st : Option WindowState) (now : ℤ) : Outcome × WindowState :=
  match st with
  | none => (.allow, ⟨1, now⟩)
  | some entry =>
    if now - entry.windowStart < windowTime then
      if entry.count < maxRequests then
        (.allow, ⟨entry.count + 1, entry.windowStart⟩)
      else
        (.rejectWith (jsCeilDiv (windowTime - (now - entry.windowStart)) 1000), entry)
    else
      (.allow, ⟨1, now⟩)

/-! ## Sliding window log (src/unnamed/part_008) -/

/-- The pruning test of the sliding window log: a stored timestamp is
kept when now - ts is at most windowMs. -/
def swlKeep (windowMs now ts : ℤ) : Bool := decide (now - ts ≤ windowMs)

/-- One call of the sliding window log middleware for one key.  Mirrors
slidingWindowRateLimiter: first sight stores the singleton log, otherwise
the log is pruned to the trailing window, the current time is appended,
the result is stored back, and the request is rejected exactly when the
new log is longer than maxRequests. -/
def slidingWindowRateLimiter (windowMs : ℤ) (maxRequests : ℕ)
    (st : Option (List ℤ)) (now : ℤ) : Outcome × List ℤ :=
  match st with
  | none => (.allow, [now])
  | some timeStamps =>
    let updated := timeStamps.filter (swlKeep windowMs now) ++ [now]
    ((if maxRequests < updated.length then
        .rejectWith (jsCeilDiv (windowMs - (now - updated.headI)) 1000)
      else .allow), updated)

/-! ## Sliding window counter (src/rate-limiting/rate-limiters/sliding-window-counter.js) -/

/-- One of the two adjacent counters kept per key. -/
structure WindowCount where
  timestamp : ℤ
  count : ℤ
  deriving DecidableEq, Repr

/-- Per-key state of the sliding window counter. -/
structure CounterPairState where
  current : WindowCount
  previous : WindowCount
  deriving DecidableEq, Repr

/-- Start of the bucket containing now:
Math.floor(now / windowSize) * windowSize. -/
def bucketStart (windowSize now : ℤ) : ℤ := Int.fdiv now windowSize * windowSize

/-- The shift performed on a stored entry before the decision: roll the
windows when the bucket changed, otherwise increment the current count. -/
def swcShift (windowSize : ℤ) (entry : CounterPairState) (now : ℤ) : CounterPairState :=
  let ws := bucketStart windowSize now
  if entry.current.timestamp ≠ ws then
    ⟨⟨ws, 1⟩, entry.current⟩
  else
    ⟨⟨entry.current.timestamp, entry.current.count + 1⟩, entry.previous⟩

/-- The weighted estimate computed from an entry at a call time:
current.count * (1 - weight) + previous.count * weight with
weight = (now - bucketStart) / windowSize. -/
def swcTotalCount (windowSize : ℤ) (entry : CounterPairState) (now : ℤ) : ℚ :=
  (entry.current.count : ℚ) *
      (1 - ((now - bucketStart windowSize now : ℤ) : ℚ) / ((windowSize : ℤ) : ℚ)) +
    (entry.previous.count : ℚ) *
      (((now - bucketStart windowSize now : ℤ) : ℚ) / ((windowSize : ℤ) : ℚ))

/-- One call of the sliding window counter middleware for one key.
Mirrors slidingWindowCounterRateLimiter: initialize both counters on
first sight, otherwise shift, then reject when the weighted estimate
exceeds maxRequests. -/
def slidingWindowCounterRateLimiter (windowSize maxRequests : ℤ)
    (st : Option CounterPairState) (now : ℤ) : Outcome × CounterPairState :=
  match st with
  | none =>
    (.allow, ⟨⟨bucketStart windowSize now, 1⟩, ⟨bucketStart windowSize now - windowSize, 0⟩⟩)
  | some entry =>
    let entry2 := swcShift windowSize entry now
    ((if (maxRequests : ℚ) < swcTotalCount windowSize entry2 now then
        .rejectWith (jsCeilDiv windowSize 1000)
      else .allow), entry2)

/-! ## Token bucket (src/rate-limiting/rate-limiters/token-bucket.js) -/

/-- Per-key state of the token bucket. -/
structure TokenBucketState where
  tokens : ℤ
  lastRefill : ℤ
  deriving DecidableEq, Repr

/-- Tokens produced by the refill at a call:
Math.floor(((now - lastRefill) / 1000) * refillRate). -/
def tokensToAdd (refillRate : ℤ) (b : TokenBucketState) (now : ℤ) : ℤ :=
  Int.fdiv ((now - b.lastRefill) * refillRate) 1000

/-- One call of the token bucket middleware for one key.  Mirrors
tokenBucketRateLimiter: first sight stores capacity - 1 tokens, otherwise
refill capped at the capacity, advance lastRefill only when whole tokens
were added, then spend one token or reject with retryAfter 1. -/
def tokenBucketRateLimiter (bucketCapacity refillRate : ℤ)
    (st : Option TokenBucketState) (now : ℤ) : Outcome × TokenBucketState :=
  match st with
  | none => (.allow, ⟨bucketCapacity - 1, now⟩)
  | some b =>
    if 0 < min bucketCapacity (b.tokens + tokensToAdd refillRate b now) then
      (.allow, ⟨min bucketCapacity (b.tokens + tokensToAdd refillRate b now) - 1,
        if 0 < tokensToAdd refillRate b now then now else b.lastRefill⟩)
    else
      (.rejectWith 1, ⟨min bucketCapacity (b.tokens + tokensToAdd refillRate b now),
        if 0 < tokensToAdd refillRate b now then now else b.lastRefill⟩)

/-! ## Leaky bucket (src/rate-limiting/rate-limiters/leaky-token-bucket.js) -/

/-- Per-key state of the leaky bucket. -/
structure LeakyBucketState where
  lastLeakTime : ℤ
  queue : ℤ
  deriving DecidableEq, Repr

/-- Number of whole leak intervals elapsed since the last leak:
Math.floor((now - lastLeakTime) / leakRate). -/
def leakedCount (leakRate : ℤ) (b : LeakyBucketState) (now : ℤ) : ℤ :=
  Int.fdiv (now - b.lastLeakTime) leakRate

/-- Queue level observed after leaking, before the new request is
counted: Math.max(0, queue - leaked). -/
def leakedLevel (leakRate : ℤ) (b : LeakyBucketState) (now : ℤ) : ℤ :=
  max 0 (b.queue - leakedCount leakRate b now)

/-- One call of the leaky bucket middleware for one key.  Mirrors
leakyBucketRateLimiter: first sight stores a queue of one, otherwise
drain whole elapsed intervals saturating at zero, advance lastLeakTime
only when something leaked, then enqueue or reject on a full queue. -/
def leakyBucketRateLimiter (queueCapacity leakRate : ℤ)
    (st : Option LeakyBucketState) (now : ℤ) : Outcome × LeakyBucketState :=
  match st with
  | none => (.allow, ⟨now, 1⟩)
  | some b =>
    if leakedLevel leakRate b now < queueCapacity then
      (.allow, ⟨if 0 < leakedCount leakRate b now then now else b.lastLeakTime,
        leakedLevel leakRate b now + 1⟩)
    else
      (.rejectWith (jsCeilDiv leakRate 1000),
        ⟨if 0 < leakedCount leakRate b now then now else b.lastLeakTime,
          leakedLevel leakRate b now⟩)

/-! ## Delayed-admission throttle (src/API-Throttling/middleware.js) -/

/-- One synchronous call of the throttle middleware for one key.  Mirrors
throttleMiddleware: a missing entry counts as the empty history, the
history is pruned with the strict window test now - ts < timeWindow and
stored back; under the limit the call proceeds at once with its timestamp
recorded, otherwise the continuation is scheduled after the time the
oldest tracked timestamp needs to leave the window.  The pruned history
the call computes and stores is throttlePruned. -/
def throttlePruned (timeWindow : ℤ) (st : Option (List ℤ)) (now : ℤ) : List ℤ :=
  (st.getD []).filter (fun ts => decide (now - ts < timeWindow))

/-- The decision and stored state of one throttleMiddleware call. -/
def throttleMiddleware (timeWindow : ℤ) (maxRequests : ℕ)
    (st : Option (List ℤ)) (now : ℤ) : Outcome × List ℤ :=
  if (throttlePruned timeWindow st now).length < maxRequests then
    (.allow, throttlePruned timeWindow st now ++ [now])
  else
    (.delayFor (timeWindow - (now - (throttlePruned timeWindow st now).headI)),
      throttlePruned timeWindow st now)

/-- The body of the setTimeout continuation of throttleMiddleware: at the
later wall-clock time it re-prunes whatever is stored for the key and
appends its own timestamp before proceeding. -/
def throttleContinuation (timeWindow : ℤ) (stored : List ℤ) (now2 : ℤ) : List ℤ :=
  stored.filter (fun ts => decide (now2 - ts < timeWindow)) ++ [now2]

/-! ## Running a middleware over a request sequence for one key -/

/-- Final stored state after a sequence of calls. -/
def runState {S : Type} (step : Option S → ℤ → Outcome × S) :
    Option S → List ℤ → Option S
  | st, [] => st
  | st, t :: rest => runState step (some (step st t).2) rest

/-- Outcomes of a sequence of calls, in order. -/
def runOutcomes {S : Type} (step : Option S → ℤ → Outcome × S) :
    Option S → List ℤ → List Outcome
  | _, [] => []
  | st, t :: rest => (step st t).1 :: runOutcomes step (some (step st t).2) rest

/-- Timestamps of the requests a sequence of calls admits. -/
def admittedTimes {S : Type} (step : Option S → ℤ → Outcome × S) :
    Option S → List ℤ → List ℤ
  | _, [] => []
  | st, t :: rest =>
    (if (step st t).1 = .allow then [t] else []) ++ admittedTimes step (some (step st t).2) rest

/-- Number of admitted requests in a sequence of calls. -/
def allowCount {S : Type} (step : Option S → ℤ → Outcome × S)
    (st : Option S) (times : List ℤ) : ℕ :=
  (runOutcomes step st times).count .allow

/-! ## Generic facts about runs -/

theorem runState_append {S : Type} (step : Option S → ℤ → Outcome × S)
    (st : Option S) (l1 l2 : List ℤ) :
    runState step st (l1 ++ l2) = runState step (runState step st l1) l2 := by
  induction l1 generalizing st with
  | nil => rfl
  | cons t rest ih => simpa [runState] using ih (some (step st t).2)

theorem runState_concat {S : Type} (step : Option S → ℤ → Outcome × S)
    (st : Option S) (l : List ℤ) (t : ℤ) :
    runState step st (l ++ [t]) = some ((step (runState step st l) t).2) := by
  rw [runState_append]; rfl

theorem runOutcomes_append {S : Type} (step : Option S → ℤ → Outcome × S)
    (st : Option S) (l1 l2 : List ℤ) :
    runOutcomes step st (l1 ++ l2) =
      runOutcomes step st l1 ++ runOutcomes step (runState step st l1) l2 := by
  induction l1 generalizing st with
  | nil => rfl
  | cons t rest ih => simp [runOutcomes, runState, ih]

theorem admittedTimes_append {S : Type} (step : Option S → ℤ → Outcome × S)
    (st : Option S) (l1 l2 : List ℤ) :
    admittedTimes step st (l1 ++ l2) =
      admittedTimes step st l1 ++ admittedTimes step (runState step st l1) l2 := by
  induction l1 generalizing st with
  | nil => rfl
  | cons t rest ih => simp [admittedTimes, runState, ih]

theorem admittedTimes_sublist {S : Type} (step : Option S → ℤ → Outcome × S)
    (st : Option S) (l : List ℤ) : List.Sublist (admittedTimes step st l) l := by
  induction l generalizing st with
  | nil => exact List.Sublist.refl []
  | cons t rest ih =>
    by_cases h : (step st t).1 = .allow
    · simpa [admittedTimes, h] using (ih (some (step st t).2)).cons₂ t
    · simpa [admittedTimes, h] using (ih (some (step st t).2)).cons t

theorem runState_invariant {S : Type} (step : Option S → ℤ → Outcome × S)
    (I : ℤ → S → Prop)
    (hinit : ∀ t, I t (step none t).2)
    (hpres : ∀ s t t', t ≤ t' → I t s → I t' (step (some s) t').2) :
    ∀ (h : List ℤ) (t : ℤ), (h ++ [t]).Pairwise (· ≤ ·) →
      ∀ s ∈ runState step none (h ++ [t]), I t s := by
  intro h
  induction h using List.reverseRecOn with
  | nil =>
    intro t _ s hs
    simp only [List.nil_append, runState_concat, runState, Option.mem_def,
      Option.some.injEq] at hs
    exact hs ▸ hinit t
  | append_singleton h u ih =>
    intro t hpw s hs
    have hut : u ≤ t := by
      rcases List.pairwise_append.mp hpw with ⟨_, _, hcross⟩
      exact hcross u (by simp) t (by simp)
    have hpw2 : (h ++ [u]).Pairwise (· ≤ ·) :=
      hpw.sublist (List.sublist_append_left _ _)
    have hu := ih u hpw2 ((step (runState step none h) u).2)
      (by rw [runState_concat]; rfl)
    rw [runState_concat, runState_concat, Option.mem_def, Option.some.injEq] at hs
    exact hs ▸ hpres _ u t hut hu

/-! ## C3: fixed window scenario -/

theorem fixedWindow_run_allows (W Mx : ℤ) (t0 : ℤ) :
    ∀ (l : List ℤ) (c : ℤ), c + l.length ≤ Mx → (∀ x ∈ l, x - t0 < W) →
      runOutcomes (fixedWindowRateLimiter W Mx) (some ⟨c, t0⟩) l =
          List.replicate l.length .allow ∧
        runState (fixedWindowRateLimiter W Mx) (some ⟨c, t0⟩) l =
          some ⟨c + l.length, t0⟩ := by
  intro l
  induction l with
  | nil => intro c _ _; simp [runOutcomes, runState]
  | cons x rest ih =>
    intro c hc hin
    have hx : x - t0 < W := hin x (by simp)
    have hlen1 : ((x :: rest).length : ℤ) = (rest.length : ℤ) + 1 := by
      push_cast [List.length_cons]; ring
    have hcM : c < Mx := by omega
    have hstep : fixedWindowRateLimiter W Mx (some ⟨c, t0⟩) x =
        (.allow, ⟨c + 1, t0⟩) := by
      simp [fixedWindowRateLimiter, hx, hcM]
    have hrec := ih (c + 1) (by omega) (fun y hy => hin y (by simp [hy]))
    refine ⟨?_, ?_⟩
    · simp only [runOutcomes, hstep, List.length_cons, List.replicate_succ]
      exact congrArg _ hrec.1
    · simp only [runState, hstep, hrec.2]
      congr 2
      omega

/-- C3: with maxRequests N, N requests from one key all inside the window
opened by the first of them are all admitted, and the request after them
inside the same window is rejected with retryAfterSeconds equal to the
remaining window time rounded up, ceil((W - (now - windowStart)) / 1000). -/
theorem fixedWindow_admits_N_then_rejects (W : ℤ) (N : ℕ) (t0 tl : ℤ) (mid : List ℤ)
    (hN : 1 ≤ N) (hlen : mid.length = N - 1)
    (hmid : ∀ x ∈ mid, x - t0 < W) (htl : tl - t0 < W) :
    runOutcomes (fixedWindowRateLimiter W (N : ℤ)) none (t0 :: (mid ++ [tl])) =
      List.replicate N .allow ++ [.rejectWith (jsCeilDiv (W - (tl - t0)) 1000)] := by
  have hstep0 : fixedWindowRateLimiter W (N : ℤ) none t0 = (.allow, ⟨1, t0⟩) := rfl
  have hrun := fixedWindow_run_allows W (N : ℤ) t0 mid 1
    (by omega) hmid
  have hcount : (1 : ℤ) + (mid.length : ℤ) = (N : ℤ) := by omega
  have hlast : fixedWindowRateLimiter W (N : ℤ)
      (some ⟨1 + (mid.length : ℤ), t0⟩) tl =
      (.rejectWith (jsCeilDiv (W - (tl - t0)) 1000), ⟨1 + (mid.length : ℤ), t0⟩) := by
    simp [fixedWindowRateLimiter, htl, hcount]
  calc runOutcomes (fixedWindowRateLimiter W (N : ℤ)) none (t0 :: (mid ++ [tl]))
      = .allow :: runOutcomes (fixedWindowRateLimiter W (N : ℤ))
          (some ⟨1, t0⟩) (mid ++ [tl]) := by
        simp [runOutcomes, hstep0]
    _ = .allow :: (List.replicate mid.length .allow ++
          [.rejectWith (jsCeilDiv (W - (tl - t0)) 1000)]) := by
        rw [runOutcomes_append, hrun.1, hrun.2]
        simp [runOutcomes, hlast]
    _ = List.replicate N .allow ++ [.rejectWith (jsCeilDiv (W - (tl - t0)) 1000)] := by
        have : N = mid.length + 1 := by omega
        simp [this, List.replicate_succ]

/-- C3 witness: window 1000 ms, maxRequests 2, requests at 0, 1 and 2 ms
give two admissions and a rejection telling the client to retry after one
second. -/
theorem fixedWindow_admits_N_then_rejects_witness :
    runOutcomes (fixedWindowRateLimiter 1000 (2 : ℕ)) none (0 :: ([1] ++ [2])) =
      List.replicate 2 .allow ++ [.rejectWith (jsCeilDiv (1000 - (2 - 0)) 1000)] :=
  fixedWindow_admits_N_then_rejects 1000 2 0 2 [1] (by decide) (by decide)
    (by intro x hx; simp at hx; omega) (by decide)

/-- C2: token bucket with capacity 10 and one token per second: ten
requests at one instant are all admitted, the eleventh immediately after
is rejected with retryAfter 1, after exactly one second of idleness
exactly one further request is admitted and a second immediate request is
rejected again. -/
theorem tokenBucket_scenario_A :
    runOutcomes (tokenBucketRateLimiter 10 1) none
        [0, 0, 0, 0, 0, 0, 0, 0, 0, 0, 0, 1000, 1000] =
      [.allow, .allow, .allow, .allow, .allow, .allow, .allow, .allow, .allow, .allow,
        .rejectWith 1, .allow, .rejectWith 1] := by
  decide

/-! ## C1: sliding window log never overflows a trailing window -/

theorem swl_snd (W : ℤ) (M : ℕ) (ts : List ℤ) (now : ℤ) :
    (slidingWindowRateLimiter W M (some ts) now).2 =
      ts.filter (swlKeep W now) ++ [now] := rfl

theorem swl_fst_allow_iff (W : ℤ) (M : ℕ) (ts : List ℤ) (now : ℤ) :
    (slidingWindowRateLimiter W M (some ts) now).1 = .allow ↔
      (ts.filter (swlKeep W now)).length + 1 ≤ M := by
  by_cases hlen : M < (ts.filter (swlKeep W now) ++ [now]).length
  · simp only [slidingWindowRateLimiter, hlen, if_true]
    simp only [List.length_append, List.length_singleton] at hlen
    constructor
    · intro hcontra; exact absurd hcontra (by simp)
    · intro hle; omega
  · simp only [slidingWindowRateLimiter, hlen, if_false]
    simp only [List.length_append, List.length_singleton] at hlen
    constructor
    · intro _; omega
    · intro _; trivial

theorem swlKeep_filter_absorb (W u t : ℤ) (hut : u ≤ t) (l : List ℤ) :
    (l.filter (swlKeep W u)).filter (swlKeep W t) = l.filter (swlKeep W t) := by
  rw [List.filter_filter]
  apply List.filter_congr
  intro x _
  by_cases hx : t - x ≤ W
  · have hux : u - x ≤ W := by omega
    simp [swlKeep, hx, hux]
  · simp [swlKeep, hx]

theorem swl_state_char (W : ℤ) (M : ℕ) (hW : 0 ≤ W) :
    ∀ (h : List ℤ) (t : ℤ), (h ++ [t]).Pairwise (· ≤ ·) →
      runState (slidingWindowRateLimiter W M) none (h ++ [t]) =
        some ((h ++ [t]).filter (swlKeep W t)) := by
  intro h
  induction h using List.reverseRecOn with
  | nil =>
    intro t _
    rw [List.nil_append, show ([t] : List ℤ) = [] ++ [t] from rfl, runState_concat]
    simp [runState, slidingWindowRateLimiter, swlKeep, hW]
  | append_singleton h u ih =>
    intro t hpw
    have hut : u ≤ t := by
      rcases List.pairwise_append.mp hpw with ⟨_, _, hcross⟩
      exact hcross u (by simp) t (by simp)
    have hpw2 : (h ++ [u]).Pairwise (· ≤ ·) :=
      hpw.sublist (List.sublist_append_left _ _)
    rw [runState_concat, ih u hpw2, swl_snd, swlKeep_filter_absorb W u t hut,
      List.filter_append _ [t]]
    simp [swlKeep, hW]

theorem swl_allowed_count (W : ℤ) (M : ℕ) (hW : 0 ≤ W) (h : List ℤ) (u t : ℤ)
    (hpw : ((h ++ [u]) ++ [t]).Pairwise (· ≤ ·)) :
    (slidingWindowRateLimiter W M
        (runState (slidingWindowRateLimiter W M) none (h ++ [u])) t).1 = .allow ↔
      ((h ++ [u]).filter (swlKeep W t)).length + 1 ≤ M := by
  have hut : u ≤ t := by
    rcases List.pairwise_append.mp hpw with ⟨_, _, hcross⟩
    exact hcross u (by simp) t (by simp)
  have hpw2 : (h ++ [u]).Pairwise (· ≤ ·) :=
    hpw.sublist (List.sublist_append_left _ _)
  rw [show (h ++ [u] : List ℤ) = (h ++ [u]) from rfl] at hpw2
  rw [swl_state_char W M hW h u hpw2, swl_fst_allow_iff,
    swlKeep_filter_absorb W u t hut]

/-- C1: over any monotone request sequence from one key, the sliding
window log strategy admits at most maxRequests requests inside every
trailing interval of length windowMs ending at any current time T, even
though rejected requests leave their timestamps in the log. -/
theorem slidingWindowLog_trailing_window_bound (W : ℤ) (M : ℕ) (times : List ℤ)
    (T : ℤ) (hW : 0 ≤ W) (hM : 1 ≤ M) (hpw : times.Pairwise (· ≤ ·)) :
    (admittedTimes (slidingWindowRateLimiter W M) none times).countP
        (fun a => decide (a ≤ T ∧ T - a ≤ W)) ≤ M := by
  revert hpw
  induction times using List.reverseRecOn with
  | nil => intro _; simp [admittedTimes]
  | append_singleton h t ih =>
    intro hpw
    have hpw2 : h.Pairwise (· ≤ ·) := hpw.sublist (List.sublist_append_left _ _)
    have hmemle : ∀ a ∈ h, a ≤ t := by
      rcases List.pairwise_append.mp hpw with ⟨_, _, hcross⟩
      exact fun a ha => hcross a ha t (by simp)
    rw [admittedTimes_append, List.countP_append]
    by_cases hall : (slidingWindowRateLimiter W M
        (runState (slidingWindowRateLimiter W M) none h) t).1 = .allow
    · by_cases hwin : t ≤ T ∧ T - t ≤ W
      · have hw2 : T ≤ W + t := by omega
        have hone : (admittedTimes (slidingWindowRateLimiter W M)
            (runState (slidingWindowRateLimiter W M) none h) [t]).countP
              (fun a => decide (a ≤ T ∧ T - a ≤ W)) = 1 := by
          simp [admittedTimes, hall, List.countP_cons, hwin.1, hw2]
        rw [hone]
        rcases List.eq_nil_or_concat' h with rfl | ⟨h', u, rfl⟩
        · simpa [admittedTimes] using hM
        · have hcount := (swl_allowed_count W M hW h' u t hpw).mp hall
          have h1 : (admittedTimes (slidingWindowRateLimiter W M) none (h' ++ [u])).countP
                (fun a => decide (a ≤ T ∧ T - a ≤ W)) ≤
              (admittedTimes (slidingWindowRateLimiter W M) none (h' ++ [u])).countP
                (swlKeep W t) := by
            apply List.countP_mono_left
            intro a ha hp
            have hmem : a ∈ h' ++ [u] :=
              (admittedTimes_sublist (slidingWindowRateLimiter W M) none (h' ++ [u])).mem ha
            have hat : a ≤ t := hmemle a hmem
            simp only [decide_eq_true_eq] at hp
            simp only [swlKeep, decide_eq_true_eq]
            omega
          have h2 : (admittedTimes (slidingWindowRateLimiter W M) none (h' ++ [u])).countP
                (swlKeep W t) ≤ (h' ++ [u]).countP (swlKeep W t) :=
            (admittedTimes_sublist (slidingWindowRateLimiter W M) none (h' ++ [u])).countP_le _
          have h3 : (h' ++ [u]).countP (swlKeep W t) =
              ((h' ++ [u]).filter (swlKeep W t)).length := by
            rw [List.countP_eq_length_filter]
          omega
      · have hzero : (admittedTimes (slidingWindowRateLimiter W M)
            (runState (slidingWindowRateLimiter W M) none h) [t]).countP
              (fun a => decide (a ≤ T ∧ T - a ≤ W)) = 0 := by
          simp [admittedTimes, hall, List.countP_cons]
          omega
        rw [hzero]
        simpa using ih hpw2
    · have hzero : (admittedTimes (slidingWindowRateLimiter W M)
          (runState (slidingWindowRateLimiter W M) none h) [t]).countP
            (fun a => decide (a ≤ T ∧ T - a ≤ W)) = 0 := by
        simp [admittedTimes, hall]
      rw [hzero]
      simpa using ih hpw2

/-- C1 witness: window 100 ms, maxRequests 2: of four requests at 0, 10,
20 and 30 ms the strategy admits two, so every trailing 100 ms interval,
for instance the one ending at 30, holds at most 2 admitted requests. -/
theorem slidingWindowLog_trailing_window_bound_witness :
    (admittedTimes (slidingWindowRateLimiter 100 2) none [0, 10, 20, 30]).countP
        (fun a => decide (a ≤ 30 ∧ 30 - a ≤ 100)) ≤ 2 :=
  slidingWindowLog_trailing_window_bound 100 2 [0, 10, 20, 30] 30 (by decide)
    (by decide) (by decide)

/-! ## C6: sliding window log per-call contract (refinement) -/

/-- The per-call contract of the sliding window log as the spec words it:
prune the stored sequence (a missing key holding the empty sequence) to
entries with now - ts at most windowMs, append now, then reject exactly
when the resulting length exceeds maxRequests, with retryAfterSeconds
computed from the oldest retained entry. -/
def slidingWindowSpecContract (windowMs : ℤ) (maxRequests : ℕ)
    (st : Option (List ℤ)) (now : ℤ) : Outcome × List ℤ :=
  let pruned := (st.getD []).filter (swlKeep windowMs now)
  let appended := pruned ++ [now]
  if maxRequests < appended.length then
    (.rejectWith (jsCeilDiv (windowMs - (now - appended.headI)) 1000), appended)
  else
    (.allow, appended)

/-- C6: for any positive maxRequests the sliding window log middleware
computes exactly the prune-append-compare contract of the spec, both in
its decision (including the retryAfter value) and in the state it stores
back. -/
theorem slidingWindowLog_meets_contract (W : ℤ) (M : ℕ) (hM : 1 ≤ M)
    (st : Option (List ℤ)) (now : ℤ) :
    slidingWindowRateLimiter W M st now = slidingWindowSpecContract W M st now := by
  cases st with
  | none =>
    have hnot : ¬ (M < 1) := by omega
    simp [slidingWindowRateLimiter, slidingWindowSpecContract, hnot]
  | some ts =>
    by_cases hlen : M < (ts.filter (swlKeep W now)).length + 1
    · simp [slidingWindowRateLimiter, slidingWindowSpecContract, hlen]
    · simp [slidingWindowRateLimiter, slidingWindowSpecContract, hlen]

/-- C6 witness: with windowMs 1000 and maxRequests 1, a second request
at 900 ms against the stored log of one request at 5 ms takes the same
rejection with the same retryAfter under the code and under the contract. -/
theorem slidingWindowLog_meets_contract_witness :
    slidingWindowRateLimiter 1000 1 (some [5]) 900 =
      slidingWindowSpecContract 1000 1 (some [5]) 900 :=
  slidingWindowLog_meets_contract 1000 1 (by decide) (some [5]) 900

/-! ## C9: the throttle delays, never hard-rejects -/

/-- C9: the throttle middleware never answers with a 429 rejection; when
the pruned history has reached maxRequests it instead asks for the
continuation to run after exactly windowDuration minus the age of the
oldest tracked timestamp, a delay after which every timestamp at most the
oldest one fails the window test; and the continuation body prunes again
at its own later wall-clock time, so everything it stores, apart from its
own timestamp, is strictly inside the window at that time. -/
theorem throttle_never_rejects (TW : ℤ) (MR : ℕ) (hTW : 1 ≤ TW) :
    (∀ (st : Option (List ℤ)) (now r : ℤ),
        (throttleMiddleware TW MR st now).1 ≠ .rejectWith r)
    ∧ (∀ (st : Option (List ℤ)) (now d : ℤ),
        (throttleMiddleware TW MR st now).1 = .delayFor d →
          MR ≤ (throttlePruned TW st now).length
          ∧ d = TW - (now - (throttlePruned TW st now).headI))
    ∧ (∀ (st : Option (List ℤ)) (now d : ℤ),
        (throttleMiddleware TW MR st now).1 = .delayFor d →
          ∀ x ∈ (throttleMiddleware TW MR st now).2,
            x ≤ ((throttleMiddleware TW MR st now).2).headI →
              ¬ ((now + d) - x < TW))
    ∧ (∀ (stored : List ℤ) (now2 x : ℤ),
        x ∈ throttleContinuation TW stored now2 → now2 - x < TW) := by
  refine ⟨?_, ?_, ?_, ?_⟩
  · intro st now r
    unfold throttleMiddleware
    split <;> simp
  · intro st now d hd
    unfold throttleMiddleware at hd
    split at hd
    · exact absurd hd (by simp)
    · rename_i hge
      simp only [Outcome.delayFor.injEq] at hd
      constructor
      · omega
      · exact hd.symm
  · intro st now d hd x hx hxh
    have hsnd : (throttleMiddleware TW MR st now).2 = throttlePruned TW st now := by
      unfold throttleMiddleware at hd ⊢
      split at hd
      · exact absurd hd (by simp)
      · rw [if_neg (by assumption)]
    have hdval : d = TW - (now - (throttlePruned TW st now).headI) := by
      unfold throttleMiddleware at hd
      split at hd
      · exact absurd hd (by simp)
      · simp only [Outcome.delayFor.injEq] at hd
        exact hd.symm
    rw [hsnd] at hxh
    omega
  · intro stored now2 x hx
    unfold throttleContinuation at hx
    rcases List.mem_append.mp hx with hx | hx
    · have := (List.mem_filter.mp hx).2
      simpa using this
    · have : x = now2 := by simpa using hx
      omega

/-- C9 witness: window 1000 ms, maxRequests 1: against a stored history
of one request at time 0, a request at 400 ms is not rejected, and a
continuation firing at 1000 ms keeps only entries inside the window. -/
theorem throttle_never_rejects_witness :
    (throttleMiddleware 1000 1 (some [0]) 400).1 ≠ .rejectWith 1
    ∧ (0 ∈ throttleContinuation 1000 [0] 1000 → (1000 : ℤ) - 0 < 1000) :=
  ⟨(throttle_never_rejects 1000 1 (by decide)).1 (some [0]) 400 1,
    fun h => (throttle_never_rejects 1000 1 (by decide)).2.2.2 [0] 1000 0 h⟩

/-! ## C4: sliding window counter state after a call -/

theorem bucketStart_le (W t : ℤ) (hW : 0 < W) : bucketStart W t ≤ t := by
  unfold bucketStart
  rw [Int.fdiv_eq_ediv _ (le_of_lt hW)]
  have hmod : 0 ≤ t % W := Int.emod_nonneg t (ne_of_gt hW)
  have heq : t / W * W = t - t % W := by rw [Int.emod_def]; ring
  omega

theorem lt_bucketStart_add (W t : ℤ) (hW : 0 < W) : t < bucketStart W t + W := by
  unfold bucketStart
  rw [Int.fdiv_eq_ediv _ (le_of_lt hW)]
  have hmod : t % W < W := Int.emod_lt_of_pos t hW
  have heq : t / W * W = t - t % W := by rw [Int.emod_def]; ring
  omega

theorem bucketStart_mono (W t t' : ℤ) (hW : 0 < W) (h : t ≤ t') :
    bucketStart W t ≤ bucketStart W t' := by
  unfold bucketStart
  rw [Int.fdiv_eq_ediv _ (le_of_lt hW), Int.fdiv_eq_ediv _ (le_of_lt hW)]
  exact mul_le_mul_of_nonneg_right (Int.ediv_le_ediv hW h) (le_of_lt hW)

theorem bucketStart_dvd (W t : ℤ) : W ∣ bucketStart W t := dvd_mul_left W _

theorem swc_snd (W Mx : ℤ) (entry : CounterPairState) (now : ℤ) :
    (slidingWindowCounterRateLimiter W Mx (some entry) now).2 =
      swcShift W entry now := rfl

/-- C4 counterexample: window 60000 ms, a request at 0 and the next one
at 120000 ms.  After the second call the stored previous entry is the
bucket of time 0 with count 1, but the bucket immediately preceding the
one containing now starts at 60000 and saw no request, so the claimed
previous entry would be timestamp 60000 with count 0. -/
theorem swc_previous_counterexample :
    runState (slidingWindowCounterRateLimiter 60000 20) none [0, 120000] =
      some ⟨⟨120000, 1⟩, ⟨0, 1⟩⟩
    ∧ ¬ ((0 : ℤ) = 120000 - 60000 ∧ (1 : ℤ) = 0) := by
  exact ⟨by decide, by decide⟩

/-- C4 amended: after every call of a monotone run, current.timestamp is
the start of the bucket containing now; previous is the record current
held before the most recent roll, so its timestamp is the start of some
strictly earlier bucket on the window grid, but after an idle gap longer
than one bucket it is not the immediately preceding bucket and its count
is the stale count of that older bucket rather than 0. -/
theorem swc_state_invariant (W Mx : ℤ) (hW : 1 ≤ W) (h : List ℤ) (t : ℤ)
    (hpw : (h ++ [t]).Pairwise (· ≤ ·)) :
    ∀ s ∈ runState (slidingWindowCounterRateLimiter W Mx) none (h ++ [t]),
      s.current.timestamp = bucketStart W t ∧
        s.previous.timestamp < s.current.timestamp ∧
        W ∣ s.previous.timestamp := by
  refine runState_invariant (slidingWindowCounterRateLimiter W Mx)
    (fun u s => s.current.timestamp = bucketStart W u ∧
      s.previous.timestamp < s.current.timestamp ∧ W ∣ s.previous.timestamp)
    ?_ ?_ h t hpw
  · intro u
    refine ⟨rfl, ?_, ?_⟩
    · show bucketStart W u - W < bucketStart W u
      omega
    · exact dvd_sub (bucketStart_dvd W u) dvd_rfl
  · intro s u u' huu' hI
    rw [swc_snd]
    unfold swcShift
    by_cases hroll : s.current.timestamp ≠ bucketStart W u'
    · rw [if_pos hroll]
      refine ⟨rfl, ?_, ?_⟩
      · show s.current.timestamp < bucketStart W u'
        have hle : bucketStart W u ≤ bucketStart W u' :=
          bucketStart_mono W u u' (by omega) huu'
        have := hI.1
        omega
      · rw [hI.1]; exact bucketStart_dvd W u
    · rw [if_neg hroll]
      push_neg at hroll
      exact ⟨hroll, hI.2.1, hI.2.2⟩

/-- C4 amended witness: a single request at 70 with window 60 stores
current bucket 60 and previous bucket 0. -/
theorem swc_state_invariant_witness :
    (⟨⟨60, 1⟩, ⟨0, 0⟩⟩ : CounterPairState).current.timestamp = bucketStart 60 70 ∧
      (⟨⟨60, 1⟩, ⟨0, 0⟩⟩ : CounterPairState).previous.timestamp <
        (⟨⟨60, 1⟩, ⟨0, 0⟩⟩ : CounterPairState).current.timestamp ∧
      (60 : ℤ) ∣ (⟨⟨60, 1⟩, ⟨0, 0⟩⟩ : CounterPairState).previous.timestamp :=
  swc_state_invariant 60 100 (by decide) [] 70 (by decide)
    ⟨⟨60, 1⟩, ⟨0, 0⟩⟩ (by decide)

/-! ## C5: evolution of the weighted estimate -/

/-- The weighted estimates a sequence of calls computes, in call order;
the initializing call answers before computing an estimate, so it
contributes none. -/
def swcObservations (W Mx : ℤ) : Option CounterPairState → List ℤ → List ℚ
  | _, [] => []
  | none, t :: rest =>
    swcObservations W Mx (some (slidingWindowCounterRateLimiter W Mx none t).2) rest
  | some e, t :: rest =>
    swcTotalCount W (slidingWindowCounterRateLimiter W Mx (some e) t).2 t ::
      swcObservations W Mx (some (slidingWindowCounterRateLimiter W Mx (some e) t).2) rest

/-- C5 counterexample: window 60000 ms, requests at 0, 0 and 30000 ms all
fall in the bucket starting at 0, yet the estimates computed at the
second and third calls are 2 and then 3/2: the estimate dropped between
two calls of the same bucket, with no roll in between. -/
theorem swc_estimate_drop_counterexample :
    swcObservations 60000 20 none [0, 0, 30000] = [2, 3 / 2]
    ∧ bucketStart 60000 0 = bucketStart 60000 30000
    ∧ ¬ ((2 : ℚ) ≤ 3 / 2) := by
  refine ⟨?_, by decide, by norm_num⟩
  have h1 : (slidingWindowCounterRateLimiter 60000 20 none 0).2 =
      ⟨⟨0, 1⟩, ⟨-60000, 0⟩⟩ := by decide
  have h2 : (slidingWindowCounterRateLimiter 60000 20 (some ⟨⟨0, 1⟩, ⟨-60000, 0⟩⟩) 0).2 =
      ⟨⟨0, 2⟩, ⟨-60000, 0⟩⟩ := by decide
  have h3 : (slidingWindowCounterRateLimiter 60000 20
      (some ⟨⟨0, 2⟩, ⟨-60000, 0⟩⟩) 30000).2 = ⟨⟨0, 3⟩, ⟨-60000, 0⟩⟩ := by decide
  have hb0 : bucketStart 60000 (0 : ℤ) = 0 := by decide
  have hb3 : bucketStart 60000 (30000 : ℤ) = 0 := by decide
  simp only [swcObservations, h1, h2, h3, swcTotalCount, hb0, hb3]
  norm_num

theorem swc_weight_mono_aux (c p a b Wq : ℚ) (hW : 0 < Wq) (_ha : 0 ≤ a)
    (hab : a ≤ b) (hbW : b < Wq) (hcp : c ≤ p) :
    c * (1 - a / Wq) + p * (a / Wq) ≤ (c + 1) * (1 - b / Wq) + p * (b / Wq) := by
  have hWinv : (0 : ℚ) < Wq⁻¹ := inv_pos.mpr hW
  have h1 : b * Wq⁻¹ < 1 := by
    rw [← div_eq_mul_inv]
    exact (div_lt_one hW).mpr hbW
  have h2 : (0 : ℚ) ≤ (p - c) * ((b - a) * Wq⁻¹) :=
    mul_nonneg (by linarith) (mul_nonneg (by linarith) hWinv.le)
  simp only [div_eq_mul_inv]
  nlinarith [h1, h2]

/-- C5 amended: across two successive calls in the same bucket the
estimate cannot drop while the previous count is at least the current
count (so drops inside one bucket happen only once the growing current
count overtakes the weight shifting toward the previous bucket); the
unconditional within-bucket monotonicity of the claim is false. -/
theorem swc_estimate_monotone_of_prev_ge (W Mx : ℤ) (hW : 1 ≤ W)
    (s1 : CounterPairState) (t1 t2 : ℤ)
    (hcur : s1.current.timestamp = bucketStart W t1)
    (h12 : t1 ≤ t2)
    (hsame : bucketStart W t1 = bucketStart W t2)
    (hpc : s1.current.count ≤ s1.previous.count) :
    swcTotalCount W s1 t1 ≤
      swcTotalCount W (slidingWindowCounterRateLimiter W Mx (some s1) t2).2 t2 := by
  have hs2 : (slidingWindowCounterRateLimiter W Mx (some s1) t2).2 =
      ⟨⟨s1.current.timestamp, s1.current.count + 1⟩, s1.previous⟩ := by
    rw [swc_snd]
    unfold swcShift
    rw [if_neg (by simp [hcur, hsame])]
  have hW0 : (0 : ℤ) < W := by omega
  have ha0 : (0 : ℤ) ≤ t1 - bucketStart W t1 := by
    have := bucketStart_le W t1 hW0; omega
  have hbW : t2 - bucketStart W t2 < W := by
    have := lt_bucketStart_add W t2 hW0; omega
  have hab : t1 - bucketStart W t1 ≤ t2 - bucketStart W t2 := by omega
  have hWq : (0 : ℚ) < ((W : ℤ) : ℚ) := by exact_mod_cast hW0
  have haq : (0 : ℚ) ≤ ((t1 - bucketStart W t1 : ℤ) : ℚ) := by exact_mod_cast ha0
  have habq : ((t1 - bucketStart W t1 : ℤ) : ℚ) ≤ ((t2 - bucketStart W t2 : ℤ) : ℚ) := by
    exact_mod_cast hab
  have hbWq : ((t2 - bucketStart W t2 : ℤ) : ℚ) < ((W : ℤ) : ℚ) := by exact_mod_cast hbW
  have hpcq : ((s1.current.count : ℤ) : ℚ) ≤ ((s1.previous.count : ℤ) : ℚ) := by
    exact_mod_cast hpc
  have haux := swc_weight_mono_aux ((s1.current.count : ℤ) : ℚ)
    ((s1.previous.count : ℤ) : ℚ) ((t1 - bucketStart W t1 : ℤ) : ℚ)
    ((t2 - bucketStart W t2 : ℤ) : ℚ) ((W : ℤ) : ℚ)
    hWq haq habq hbWq hpcq
  rw [hs2]
  unfold swcTotalCount
  push_cast at haux ⊢
  linarith [haux]

/-- C5 amended witness: with window 60000 and state current count 1,
previous count 3 in the bucket of time 0, the estimate does not drop
from a call at 0 to a call at 30000. -/
theorem swc_estimate_monotone_of_prev_ge_witness :
    swcTotalCount 60000 ⟨⟨0, 1⟩, ⟨-60000, 3⟩⟩ 0 ≤
      swcTotalCount 60000
        (slidingWindowCounterRateLimiter 60000 20 (some ⟨⟨0, 1⟩, ⟨-60000, 3⟩⟩) 30000).2
        30000 :=
  swc_estimate_monotone_of_prev_ge 60000 20 (by decide) ⟨⟨0, 1⟩, ⟨-60000, 3⟩⟩ 0 30000
    (by decide) (by decide) (by decide) (by decide)


/-! ## C7: token bucket invariant and refill behavior -/

theorem tb_step_some (cap r : ℤ) (b : TokenBucketState) (now : ℤ) :
    tokenBucketRateLimiter cap r (some b) now =
      if 0 < min cap (b.tokens + tokensToAdd r b now) then
        (.allow, ⟨min cap (b.tokens + tokensToAdd r b now) - 1,
          if 0 < tokensToAdd r b now then now else b.lastRefill⟩)
      else
        (.rejectWith 1, ⟨min cap (b.tokens + tokensToAdd r b now),
          if 0 < tokensToAdd r b now then now else b.lastRefill⟩) := rfl

theorem tb_burst (cap r : ℤ) (_hcap : 1 ≤ cap) :
    ∀ (k : ℕ) (b : TokenBucketState) (now : ℤ),
      tokensToAdd r b now = 0 → 0 ≤ b.tokens → b.tokens ≤ cap →
      allowCount (tokenBucketRateLimiter cap r) (some b) (List.replicate k now) =
        min k b.tokens.toNat := by
  intro k
  induction k with
  | zero => intro b now _ _ _; simp [allowCount, runOutcomes]
  | succ j ih =>
    intro b now hadd h0 hcap'
    by_cases hpos : 0 < b.tokens
    · have hstep : tokenBucketRateLimiter cap r (some b) now =
          (.allow, ⟨b.tokens - 1, b.lastRefill⟩) := by
        rw [tb_step_some, hadd, add_zero, min_eq_right hcap', if_pos hpos,
          if_neg (lt_irrefl 0)]
      have hadd2 : tokensToAdd r (⟨b.tokens - 1, b.lastRefill⟩ : TokenBucketState) now = 0 :=
        hadd
      have hrec := ih ⟨b.tokens - 1, b.lastRefill⟩ now hadd2 (by dsimp only; omega)
        (by dsimp only; omega)
      have hrec2 : List.count Outcome.allow
          (runOutcomes (tokenBucketRateLimiter cap r)
            (some ⟨b.tokens - 1, b.lastRefill⟩) (List.replicate j now)) =
          min j (b.tokens - 1).toNat := hrec
      unfold allowCount
      rw [List.replicate_succ]
      simp only [runOutcomes, hstep]
      rw [List.count_cons_self]
      omega
    · have heq0 : b.tokens = 0 := by omega
      have hstep : tokenBucketRateLimiter cap r (some b) now =
          (.rejectWith 1, ⟨b.tokens, b.lastRefill⟩) := by
        rw [tb_step_some, hadd, add_zero, min_eq_right hcap', if_neg (by omega),
          if_neg (lt_irrefl 0)]
      have hadd2 : tokensToAdd r (⟨b.tokens, b.lastRefill⟩ : TokenBucketState) now = 0 :=
        hadd
      have hrec := ih ⟨b.tokens, b.lastRefill⟩ now hadd2 (by dsimp only; omega)
        (by dsimp only; omega)
      have hrec2 : List.count Outcome.allow
          (runOutcomes (tokenBucketRateLimiter cap r)
            (some ⟨b.tokens, b.lastRefill⟩) (List.replicate j now)) =
          min j b.tokens.toNat := hrec
      unfold allowCount
      rw [List.replicate_succ]
      simp only [runOutcomes, hstep]
      rw [List.count_cons_of_ne (by simp)]
      omega

/-- C7: for capacity at least 1 and a nonnegative refill rate, over any
monotone run the stored token count stays inside 0..capacity and
lastRefill never runs ahead of the clock; the step advances lastRefill
exactly when the refill floor is positive; an admitted request leaves
min(capacity, tokens + tokensToAdd) - 1 tokens, one less than the capped
refill; and from any in-range state, after t idle seconds a burst of
requests gets at most min(capacity, tokens + t * refillRate) admissions,
so at most floor(t * refillRate) requests beyond the stored tokens become
admissible, capped at the capacity. -/
theorem tokenBucket_invariant (cap r : ℤ) (hcap : 1 ≤ cap) (hr : 0 ≤ r) :
    (∀ (h : List ℤ) (t : ℤ), (h ++ [t]).Pairwise (· ≤ ·) →
      ∀ b ∈ runState (tokenBucketRateLimiter cap r) none (h ++ [t]),
        0 ≤ b.tokens ∧ b.tokens ≤ cap ∧ b.lastRefill ≤ t)
    ∧ (∀ (b : TokenBucketState) (now : ℤ),
        ((tokenBucketRateLimiter cap r (some b) now).2).lastRefill =
          if 0 < tokensToAdd r b now then now else b.lastRefill)
    ∧ (∀ (b : TokenBucketState) (now : ℤ),
        (tokenBucketRateLimiter cap r (some b) now).1 = .allow →
          ((tokenBucketRateLimiter cap r (some b) now).2).tokens =
            min cap (b.tokens + tokensToAdd r b now) - 1)
    ∧ (∀ (b : TokenBucketState) (t k : ℕ), 0 ≤ b.tokens → b.tokens ≤ cap →
        (allowCount (tokenBucketRateLimiter cap r) (some b)
            (List.replicate k (b.lastRefill + 1000 * t)) : ℤ) ≤
          min cap (b.tokens + t * r)) := by
  have haddval : ∀ (b : TokenBucketState) (t : ℕ),
      tokensToAdd r b (b.lastRefill + 1000 * t) = t * r := by
    intro b t
    unfold tokensToAdd
    rw [show (b.lastRefill + 1000 * (t : ℤ) - b.lastRefill) * r =
      1000 * ((t : ℤ) * r) from by ring]
    exact Int.mul_fdiv_cancel_left _ (by norm_num)
  refine ⟨?_, ?_, ?_, ?_⟩
  · refine runState_invariant (tokenBucketRateLimiter cap r)
      (fun u b => 0 ≤ b.tokens ∧ b.tokens ≤ cap ∧ b.lastRefill ≤ u) ?_ ?_
    · intro u
      exact ⟨by dsimp only [tokenBucketRateLimiter]; omega,
        by dsimp only [tokenBucketRateLimiter]; omega, le_refl u⟩
    · intro s u u' huu' hI
      obtain ⟨h0, hcap', hlr⟩ := hI
      have hadd : 0 ≤ tokensToAdd r s u' :=
        Int.fdiv_nonneg (mul_nonneg (by omega) hr) (by norm_num)
      have hle : min cap (s.tokens + tokensToAdd r s u') ≤ cap := min_le_left _ _
      have hge : 0 ≤ min cap (s.tokens + tokensToAdd r s u') :=
        le_min (by omega) (by omega)
      rw [tb_step_some]
      split_ifs with hpos hupd hupd
      · exact ⟨by dsimp only; omega, by dsimp only; omega, by dsimp only; omega⟩
      · exact ⟨by dsimp only; omega, by dsimp only; omega, by dsimp only; omega⟩
      · exact ⟨by dsimp only; omega, by dsimp only; omega, by dsimp only; omega⟩
      · exact ⟨by dsimp only; omega, by dsimp only; omega, by dsimp only; omega⟩
  · intro b now
    rw [tb_step_some]
    split_ifs <;> rfl
  · intro b now
    rw [tb_step_some]
    split_ifs with hpos hupd hupd
    · intro _; rfl
    · intro _; rfl
    · intro hcontra; exact absurd hcontra (by simp)
    · intro hcontra; exact absurd hcontra (by simp)
  · intro b t k h0 hcap'
    have htr : 0 ≤ (t : ℤ) * r := mul_nonneg (Int.natCast_nonneg t) hr
    cases k with
    | zero =>
      simp only [List.replicate_zero, allowCount, runOutcomes, List.count_nil]
      omega
    | succ j =>
      by_cases hpos :
          0 < min cap (b.tokens + tokensToAdd r b (b.lastRefill + 1000 * t))
      · have hstep : tokenBucketRateLimiter cap r (some b) (b.lastRefill + 1000 * t) =
            (.allow, ⟨min cap (b.tokens + (t : ℤ) * r) - 1,
              if 0 < (t : ℤ) * r then b.lastRefill + 1000 * t else b.lastRefill⟩) := by
          rw [tb_step_some, haddval b t, if_pos (by rw [haddval b t] at hpos; exact hpos)]
        have hadd2 : tokensToAdd r
            (⟨min cap (b.tokens + (t : ℤ) * r) - 1,
              if 0 < (t : ℤ) * r then b.lastRefill + 1000 * t else b.lastRefill⟩ :
              TokenBucketState) (b.lastRefill + 1000 * t) = 0 := by
          unfold tokensToAdd
          dsimp only
          split_ifs with hz
          · rw [show b.lastRefill + 1000 * (t : ℤ) - (b.lastRefill + 1000 * (t : ℤ)) = 0
              from by ring]
            norm_num
          · have htr0 : (t : ℤ) * r = 0 := by omega
            rw [show (b.lastRefill + 1000 * (t : ℤ) - b.lastRefill) * r =
              1000 * ((t : ℤ) * r) from by ring, htr0]
            norm_num
        have hburst := tb_burst cap r hcap j
          ⟨min cap (b.tokens + (t : ℤ) * r) - 1,
            if 0 < (t : ℤ) * r then b.lastRefill + 1000 * t else b.lastRefill⟩
          (b.lastRefill + 1000 * t) hadd2 (by dsimp only; rw [haddval b t] at hpos; omega)
          (by dsimp only; omega)
        have hburst2 : List.count Outcome.allow
            (runOutcomes (tokenBucketRateLimiter cap r)
              (some ⟨min cap (b.tokens + (t : ℤ) * r) - 1,
                if 0 < (t : ℤ) * r then b.lastRefill + 1000 * t else b.lastRefill⟩)
              (List.replicate j (b.lastRefill + 1000 * t))) =
            min j (min cap (b.tokens + (t : ℤ) * r) - 1).toNat := hburst
        rw [haddval b t] at hpos
        unfold allowCount
        rw [List.replicate_succ]
        simp only [runOutcomes, hstep]
        rw [List.count_cons_self]
        push_cast
        omega
      · have hz : min cap (b.tokens + tokensToAdd r b (b.lastRefill + 1000 * t)) = 0 := by
          rw [haddval b t] at hpos ⊢
          omega
        have hstep : tokenBucketRateLimiter cap r (some b) (b.lastRefill + 1000 * t) =
            (.rejectWith 1, ⟨min cap (b.tokens + (t : ℤ) * r),
              if 0 < (t : ℤ) * r then b.lastRefill + 1000 * t else b.lastRefill⟩) := by
          rw [tb_step_some, haddval b t,
            if_neg (by rw [haddval b t] at hpos; exact hpos)]
        have htr0 : (t : ℤ) * r = 0 := by
          rw [haddval b t] at hz
          omega
        have hadd2 : tokensToAdd r
            (⟨min cap (b.tokens + (t : ℤ) * r),
              if 0 < (t : ℤ) * r then b.lastRefill + 1000 * t else b.lastRefill⟩ :
              TokenBucketState) (b.lastRefill + 1000 * t) = 0 := by
          unfold tokensToAdd
          dsimp only
          rw [if_neg (by omega)]
          rw [show (b.lastRefill + 1000 * (t : ℤ) - b.lastRefill) * r =
            1000 * ((t : ℤ) * r) from by ring, htr0]
          norm_num
        have hburst := tb_burst cap r hcap j
          ⟨min cap (b.tokens + (t : ℤ) * r),
            if 0 < (t : ℤ) * r then b.lastRefill + 1000 * t else b.lastRefill⟩
          (b.lastRefill + 1000 * t) hadd2
          (by dsimp only; omega) (by dsimp only; omega)
        have hburst2 : List.count Outcome.allow
            (runOutcomes (tokenBucketRateLimiter cap r)
              (some ⟨min cap (b.tokens + (t : ℤ) * r),
                if 0 < (t : ℤ) * r then b.lastRefill + 1000 * t else b.lastRefill⟩)
              (List.replicate j (b.lastRefill + 1000 * t))) =
            min j (min cap (b.tokens + (t : ℤ) * r)).toNat := hburst
        rw [haddval b t] at hz
        unfold allowCount
        rw [List.replicate_succ]
        simp only [runOutcomes, hstep]
        rw [List.count_cons_of_ne (by simp)]
        omega

/-- C7 witness: capacity 2, rate 1: a single request at time 5 leaves one
token, within range; and from tokens 0 at lastRefill 0, three requests
after 1 idle second get at most min(2, 0 + 1) admissions. -/
theorem tokenBucket_invariant_witness :
    (∀ b ∈ runState (tokenBucketRateLimiter 2 1) none ([] ++ [5]),
      0 ≤ b.tokens ∧ b.tokens ≤ 2 ∧ b.lastRefill ≤ 5)
    ∧ ((allowCount (tokenBucketRateLimiter 2 1) (some ⟨0, 0⟩)
        (List.replicate 3 ((0 : ℤ) + 1000 * (1 : ℕ))) : ℤ) ≤ min 2 (0 + (1 : ℕ) * 1)) :=
  ⟨(tokenBucket_invariant 2 1 (by decide) (by decide)).1 [] 5 (by decide),
    (tokenBucket_invariant 2 1 (by decide) (by decide)).2.2.2 ⟨0, 0⟩ 1 3
      (by decide) (by decide)⟩

/-! ## C8: leaky bucket invariant and exact leak -/

theorem lb_step_some (cap leakR : ℤ) (b : LeakyBucketState) (now : ℤ) :
    leakyBucketRateLimiter cap leakR (some b) now =
      if leakedLevel leakR b now < cap then
        (.allow, ⟨if 0 < leakedCount leakR b now then now else b.lastLeakTime,
          leakedLevel leakR b now + 1⟩)
      else
        (.rejectWith (jsCeilDiv leakR 1000),
          ⟨if 0 < leakedCount leakR b now then now else b.lastLeakTime,
            leakedLevel leakR b now⟩) := rfl

/-- C8: for capacity at least 1 and a positive leak interval, over any
monotone run the stored queue level stays inside 0..capacity and
lastLeakTime never runs ahead of the clock; a call made exactly k whole
leak intervals after lastLeakTime observes, after leaking and before the
new request is counted, exactly max(0, queue - k); and the step advances
lastLeakTime exactly when at least one whole interval leaked. -/
theorem leakyBucket_invariant (cap leakR : ℤ) (hcap : 1 ≤ cap) (hleak : 1 ≤ leakR) :
    (∀ (h : List ℤ) (t : ℤ), (h ++ [t]).Pairwise (· ≤ ·) →
      ∀ b ∈ runState (leakyBucketRateLimiter cap leakR) none (h ++ [t]),
        0 ≤ b.queue ∧ b.queue ≤ cap ∧ b.lastLeakTime ≤ t)
    ∧ (∀ (b : LeakyBucketState) (k : ℕ),
        leakedCount leakR b (b.lastLeakTime + leakR * k) = k ∧
        leakedLevel leakR b (b.lastLeakTime + leakR * k) = max 0 (b.queue - k))
    ∧ (∀ (b : LeakyBucketState) (now : ℤ),
        ((leakyBucketRateLimiter cap leakR (some b) now).2).lastLeakTime =
          if 0 < leakedCount leakR b now then now else b.lastLeakTime) := by
  refine ⟨?_, ?_, ?_⟩
  · refine runState_invariant (leakyBucketRateLimiter cap leakR)
      (fun u b => 0 ≤ b.queue ∧ b.queue ≤ cap ∧ b.lastLeakTime ≤ u) ?_ ?_
    · intro u
      exact ⟨by dsimp only [leakyBucketRateLimiter]; omega,
        by dsimp only [leakyBucketRateLimiter]; omega, le_refl u⟩
    · intro s u u' huu' hI
      obtain ⟨h0, hcap', hll⟩ := hI
      have hcnt : 0 ≤ leakedCount leakR s u' :=
        Int.fdiv_nonneg (by omega) (by omega)
      have hlev0 : 0 ≤ leakedLevel leakR s u' := le_max_left _ _
      have hlevq : leakedLevel leakR s u' ≤ s.queue := by
        unfold leakedLevel
        omega
      rw [lb_step_some]
      split_ifs with hroom hupd hupd
      · exact ⟨by dsimp only; omega, by dsimp only; omega, by dsimp only; omega⟩
      · exact ⟨by dsimp only; omega, by dsimp only; omega, by dsimp only; omega⟩
      · exact ⟨by dsimp only; omega, by dsimp only; omega, by dsimp only; omega⟩
      · exact ⟨by dsimp only; omega, by dsimp only; omega, by dsimp only; omega⟩
  · intro b k
    have hcnt : leakedCount leakR b (b.lastLeakTime + leakR * k) = k := by
      unfold leakedCount
      rw [show b.lastLeakTime + leakR * (k : ℤ) - b.lastLeakTime =
        leakR * (k : ℤ) from by ring]
      exact Int.mul_fdiv_cancel_left _ (by omega)
    exact ⟨hcnt, by unfold leakedLevel; rw [hcnt]⟩
  · intro b now
    rw [lb_step_some]
    split_ifs <;> rfl

/-- C8 witness: capacity 2, interval 1000 ms: one request at time 7 stays
in range; from queue 2 at lastLeak 0, a call at 0 + 1000 * 1 observes one
whole leak, so level max(0, 2 - 1). -/
theorem leakyBucket_invariant_witness :
    (∀ b ∈ runState (leakyBucketRateLimiter 2 1000) none ([] ++ [7]),
      0 ≤ b.queue ∧ b.queue ≤ 2 ∧ b.lastLeakTime ≤ 7)
    ∧ (leakedCount 1000 ⟨0, 2⟩ ((0 : ℤ) + 1000 * (1 : ℕ)) = 1 ∧
        leakedLevel 1000 ⟨0, 2⟩ ((0 : ℤ) + 1000 * (1 : ℕ)) = max 0 (2 - (1 : ℕ))) :=
  ⟨(leakyBucket_invariant 2 1000 (by decide) (by decide)).1 [] 7 (by decide),
    (leakyBucket_invariant 2 1000 (by decide) (by decide)).2.1 ⟨0, 2⟩ 1⟩

/-! ## C10: rejection atomicity -/

theorem swl_state_changes (W : ℤ) (M : ℕ) (hW : 0 ≤ W) (ts : List ℤ) (now : ℤ) :
    (slidingWindowRateLimiter W M (some ts) now).2 ≠ ts := by
  rw [swl_snd]
  by_cases hall : ∀ a ∈ ts, swlKeep W now a
  · rw [List.filter_eq_self.mpr hall]
    intro hcontra
    have hlen := congrArg List.length hcontra
    simp at hlen
  · push_neg at hall
    obtain ⟨x, hx, hxk⟩ := hall
    intro hcontra
    have hcount := congrArg (List.countP (fun a => decide (W < now - a))) hcontra
    rw [List.countP_append] at hcount
    have hF : (ts.filter (swlKeep W now)).countP (fun a => decide (W < now - a)) = 0 := by
      rw [List.countP_eq_zero]
      intro a ha
      have hk := (List.mem_filter.mp ha).2
      simp only [swlKeep, decide_eq_true_eq] at hk
      simp only [decide_eq_true_eq]
      omega
    have hnow : ([now] : List ℤ).countP (fun a => decide (W < now - a)) = 0 := by
      simp only [List.countP_cons, List.countP_nil, decide_eq_true_eq]
      rw [if_neg (by omega)]
    have hxk2 : ¬ (now - x ≤ W) := by
      intro hcon
      exact hxk (by simp [swlKeep, hcon])
    have hts : 0 < ts.countP (fun a => decide (W < now - a)) := by
      refine List.countP_pos_iff.mpr ⟨x, hx, ?_⟩
      simp only [decide_eq_true_eq]
      omega
    omega

theorem swc_state_changes (W Mx : ℤ) (e : CounterPairState) (now : ℤ) :
    (slidingWindowCounterRateLimiter W Mx (some e) now).2 ≠ e := by
  rw [swc_snd]
  unfold swcShift
  by_cases hroll : e.current.timestamp ≠ bucketStart W now
  · rw [if_pos hroll]
    intro hc
    have hts := congrArg (fun s => s.current.timestamp) hc
    dsimp only at hts
    exact hroll hts.symm
  · rw [if_neg hroll]
    intro hc
    have hcnt := congrArg (fun s => s.current.count) hc
    dsimp only at hcnt
    omega

/-- C10: a rejecting call of the fixed window, token bucket or leaky
bucket strategy leaves the stored state untouched: for the token bucket a
rejection forces a zero refill floor, so neither tokens nor lastRefill
move, and for the leaky bucket a rejection forces zero whole leaks, so
neither queue nor lastLeakTime move; by contrast the two sliding window
strategies always mutate the stored state on a rejected request. -/
theorem rejection_atomicity (Wf Mf capT rT capL leakR Wl : ℤ) (Ml : ℕ) (Wc Mc : ℤ)
    (hcapT : 1 ≤ capT) (hrT : 0 ≤ rT) (hcapL : 1 ≤ capL) (hleak : 1 ≤ leakR)
    (hWl : 0 ≤ Wl) :
    (∀ (e : WindowState) (now r : ℤ),
        (fixedWindowRateLimiter Wf Mf (some e) now).1 = .rejectWith r →
          (fixedWindowRateLimiter Wf Mf (some e) now).2 = e)
    ∧ (∀ (b : TokenBucketState) (now r : ℤ), 0 ≤ b.tokens → b.tokens ≤ capT →
        b.lastRefill ≤ now →
        (tokenBucketRateLimiter capT rT (some b) now).1 = .rejectWith r →
          (tokenBucketRateLimiter capT rT (some b) now).2 = b)
    ∧ (∀ (b : LeakyBucketState) (now r : ℤ), 0 ≤ b.queue → b.queue ≤ capL →
        b.lastLeakTime ≤ now →
        (leakyBucketRateLimiter capL leakR (some b) now).1 = .rejectWith r →
          (leakyBucketRateLimiter capL leakR (some b) now).2 = b)
    ∧ (∀ (ts : List ℤ) (now r : ℤ),
        (slidingWindowRateLimiter Wl Ml (some ts) now).1 = .rejectWith r →
          (slidingWindowRateLimiter Wl Ml (some ts) now).2 ≠ ts)
    ∧ (∀ (e : CounterPairState) (now r : ℤ),
        (slidingWindowCounterRateLimiter Wc Mc (some e) now).1 = .rejectWith r →
          (slidingWindowCounterRateLimiter Wc Mc (some e) now).2 ≠ e) := by
  refine ⟨?_, ?_, ?_, ?_, ?_⟩
  · intro e now r h
    by_cases h1 : now - e.windowStart < Wf
    · by_cases h2 : e.count < Mf
      · simp [fixedWindowRateLimiter, h1, h2] at h
      · simp [fixedWindowRateLimiter, h1, h2]
    · simp [fixedWindowRateLimiter, h1] at h
  · intro b now r h0 hcap hlr h
    obtain ⟨tok, lr⟩ := b
    have hadd : 0 ≤ tokensToAdd rT ⟨tok, lr⟩ now :=
      Int.fdiv_nonneg (mul_nonneg (by dsimp only at hlr ⊢; omega) hrT) (by norm_num)
    rw [tb_step_some] at h ⊢
    by_cases hpos : 0 < min capT (tok + tokensToAdd rT ⟨tok, lr⟩ now)
    · rw [if_pos hpos] at h
      exact absurd h (by simp)
    · rw [if_neg hpos] at h ⊢
      have htok : (⟨tok, lr⟩ : TokenBucketState).tokens = tok := rfl
      have hz : tokensToAdd rT ⟨tok, lr⟩ now = 0 := by
        dsimp only at h0 hcap
        omega
      have hmin : min capT (tok + tokensToAdd rT ⟨tok, lr⟩ now) = tok := by
        dsimp only at h0 hcap
        omega
      rw [hmin, if_neg (by omega)]
  · intro b now r h0 hcap hll h
    obtain ⟨llt, q⟩ := b
    dsimp only at h0 hcap hll
    have hcnt : 0 ≤ leakedCount leakR ⟨llt, q⟩ now :=
      Int.fdiv_nonneg (by dsimp only; omega) (by omega)
    have hlev0 : 0 ≤ leakedLevel leakR ⟨llt, q⟩ now := le_max_left _ _
    have hlevq : leakedLevel leakR ⟨llt, q⟩ now ≤ q := by
      unfold leakedLevel
      dsimp only
      omega
    rw [lb_step_some] at h ⊢
    by_cases hroom : leakedLevel leakR ⟨llt, q⟩ now < capL
    · rw [if_pos hroom] at h
      exact absurd h (by simp)
    · rw [if_neg hroom] at h ⊢
      have hcnt0 : leakedCount leakR ⟨llt, q⟩ now = 0 := by
        unfold leakedLevel at hroom hlevq hlev0
        dsimp only at hroom hlevq hlev0
        omega
      have hlev : leakedLevel leakR ⟨llt, q⟩ now = q := by
        unfold leakedLevel
        rw [hcnt0]
        dsimp only
        omega
      rw [hlev, if_neg (by omega)]
  · intro ts now r h
    exact swl_state_changes Wl Ml hWl ts now
  · intro e now r h
    exact swc_state_changes Wc Mc e now

/-- C10 witness: concrete rejecting calls of each strategy: the first
three leave their state exactly as stored, the two sliding strategies
change it. -/
theorem rejection_atomicity_witness :
    (fixedWindowRateLimiter 1000 1 (some ⟨1, 0⟩) 10).2 = ⟨1, 0⟩
    ∧ (tokenBucketRateLimiter 1 1 (some ⟨0, 0⟩) 0).2 = ⟨0, 0⟩
    ∧ (leakyBucketRateLimiter 1 1000 (some ⟨0, 1⟩) 0).2 = ⟨0, 1⟩
    ∧ (slidingWindowRateLimiter 1000 1 (some [0]) 5).2 ≠ [0]
    ∧ (slidingWindowCounterRateLimiter 60000 0
        (some ⟨⟨0, 1⟩, ⟨-60000, 0⟩⟩) 30000).2 ≠ ⟨⟨0, 1⟩, ⟨-60000, 0⟩⟩ := by
  have hthm := rejection_atomicity 1000 1 1 1 1 1000 1000 1 60000 0
    (by decide) (by decide) (by decide) (by decide) (by decide)
  have hfst : (slidingWindowCounterRateLimiter 60000 0
      (some ⟨⟨0, 1⟩, ⟨-60000, 0⟩⟩) 30000).1 = .rejectWith 60 := by
    have hsh : swcShift 60000 ⟨⟨0, 1⟩, ⟨-60000, 0⟩⟩ 30000 = ⟨⟨0, 2⟩, ⟨-60000, 0⟩⟩ := by
      decide
    have hb : bucketStart 60000 (30000 : ℤ) = 0 := by decide
    have htot : swcTotalCount 60000 ⟨⟨0, 2⟩, ⟨-60000, 0⟩⟩ 30000 = 1 := by
      simp only [swcTotalCount, hb]
      norm_num
    show (if (0 : ℚ) < swcTotalCount 60000
        (swcShift 60000 ⟨⟨0, 1⟩, ⟨-60000, 0⟩⟩ 30000) 30000 then
          Outcome.rejectWith (jsCeilDiv 60000 1000)
        else Outcome.allow) = Outcome.rejectWith 60
    rw [hsh, htot, if_pos (by norm_num)]
    decide
  exact ⟨hthm.1 ⟨1, 0⟩ 10 1 (by decide),
    hthm.2.1 ⟨0, 0⟩ 0 1 (by decide) (by decide) (by decide) (by decide),
    hthm.2.2.1 ⟨0, 1⟩ 0 1 (by decide) (by decide) (by decide) (by decide),
    hthm.2.2.2.1 [0] 5 1 (by decide),
    hthm.2.2.2.2 ⟨⟨0, 1⟩, ⟨-60000, 0⟩⟩ 30000 60 hfst⟩

end BackendConcepts
